import Mathlib

/-!
Verification of the byteStore conversational product-search agent.

Shallow embedding of the Supabase Edge Function `supabase/functions/chatbot/index.ts`
(and the SQL function `check_and_increment_chat_rate_limit` shipped with it), with
theorems checking the natural-language specification against the code.

Modelling conventions:
- JS strings are Lean `String` (a list of characters); `String.prototype.toLowerCase`
  is modelled on the ASCII letters A-Z, which covers every Latin entry of the
  synonym table (Arabic characters are unchanged by both).
- JS `trim` and the regex `\s` are modelled over the ASCII whitespace characters
  space, tab, newline and carriage return.
- Timestamps are integers (epoch seconds); SQL `numeric` prices are integers.
- The catalog (PostgREST) is a list of rows; `ilike '%x%'` is case-insensitive
  substring matching, filters conjoin, `order` sorts, `limit n` truncates.
- Network effects are oracles: the Groq provider is a function from (key index,
  request payload) to an HTTP outcome, and the model driving the agent loop is a
  function from the round-trip index to an assistant message.
-/

namespace ByteStore

/-! ## Character and string primitives (JS runtime operations used by the function) -/

/-- ASCII whitespace, the characters relevant to JS `trim` and `\s` here. -/
def isWsChar (c : Char) : Bool :=
  c == ' ' || c == '\t' || c == '\n' || c == '\r'

/-- The 26 uppercase/lowercase ASCII pairs. -/
def upperLowerPairs : List (Char × Char) :=
  [('A', 'a'), ('B', 'b'), ('C', 'c'), ('D', 'd'), ('E', 'e'), ('F', 'f'),
   ('G', 'g'), ('H', 'h'), ('I', 'i'), ('J', 'j'), ('K', 'k'), ('L', 'l'),
   ('M', 'm'), ('N', 'n'), ('O', 'o'), ('P', 'p'), ('Q', 'q'), ('R', 'r'),
   ('S', 's'), ('T', 't'), ('U', 'u'), ('V', 'v'), ('W', 'w'), ('X', 'x'),
   ('Y', 'y'), ('Z', 'z')]

/-- JS `toLowerCase` restricted to the ASCII alphabet: uppercase letters map to
their lowercase pair, every other character is unchanged. -/
def lowerChar (c : Char) : Char :=
  ((upperLowerPairs.find? (fun p => p.1 == c)).map (fun p => p.2)).getD c

/-- JS `s.toLowerCase()`. -/
def lowerStr (s : String) : String :=
  ⟨s.data.map lowerChar⟩

/-- Trim ASCII whitespace from both ends of a character list. -/
def trimList (l : List Char) : List Char :=
  ((l.dropWhile isWsChar).reverse.dropWhile isWsChar).reverse

/-- JS `s.trim()`. -/
def trimStr (s : String) : String :=
  ⟨trimList s.data⟩

/-- JS `hay.includes(sub)`: substring containment. -/
def containsStr (hay sub : String) : Bool :=
  decide (sub.data <:+: hay.data)

/-! ### Elementary lemmas about the primitives -/

theorem lowerChar_cases (c : Char) :
    lowerChar c = c ∨ ∃ p ∈ upperLowerPairs, lowerChar c = p.2 := by
  unfold lowerChar
  cases hf : upperLowerPairs.find? (fun p => p.1 == c) with
  | none => left; rfl
  | some p => right; exact ⟨p, List.mem_of_find?_eq_some hf, rfl⟩

theorem lowerChar_snd_fix : ∀ p ∈ upperLowerPairs, lowerChar p.2 = p.2 := by decide

theorem lowerChar_idem (c : Char) : lowerChar (lowerChar c) = lowerChar c := by
  rcases lowerChar_cases c with h | ⟨p, hp, he⟩
  · rw [h, h]
  · rw [he]; exact lowerChar_snd_fix p hp

theorem lowerChar_fix_of_mem_lower {c : Char} {l : List Char}
    (h : c ∈ l.map lowerChar) : lowerChar c = c := by
  rcases List.mem_map.mp h with ⟨c₀, _, rfl⟩
  exact lowerChar_idem c₀

theorem dropWhile_length_le (p : Char → Bool) :
    ∀ l : List Char, (l.dropWhile p).length ≤ l.length := by
  intro l
  induction l with
  | nil => simp [List.dropWhile]
  | cons c cs ih =>
    by_cases h : p c
    · simp only [List.dropWhile, h]
      exact Nat.le_trans ih (Nat.le_succ _)
    · simp [List.dropWhile, h]

theorem dropWhile_head_not (p : Char → Bool) (l : List Char) :
    ∀ c, (l.dropWhile p).head? = some c → p c = false := by
  induction l with
  | nil => intro c h; simp [List.dropWhile] at h
  | cons a as ih =>
    intro c h
    by_cases ha : p a
    · exact ih c (by simpa [List.dropWhile, ha] using h)
    · simp only [List.dropWhile, ha, if_false] at h
      simp only [List.head?] at h
      cases h
      simpa using ha

theorem dropWhile_eq_self_of_head (p : Char → Bool) (l : List Char)
    (h : ∀ c, l.head? = some c → p c = false) : l.dropWhile p = l := by
  cases l with
  | nil => simp [List.dropWhile]
  | cons a as =>
    have := h a rfl
    simp [List.dropWhile, this]

theorem dropWhile_idem (p : Char → Bool) (l : List Char) :
    (l.dropWhile p).dropWhile p = l.dropWhile p :=
  dropWhile_eq_self_of_head p _ (dropWhile_head_not p l)

theorem getLast?_dropWhile (p : Char → Bool) :
    ∀ l : List Char, l.dropWhile p ≠ [] → (l.dropWhile p).getLast? = l.getLast? := by
  intro l
  induction l with
  | nil => intro h; simp [List.dropWhile] at h
  | cons a as ih =>
    intro h
    by_cases ha : p a
    · have hd : (a :: as).dropWhile p = as.dropWhile p := by simp [List.dropWhile, ha]
      rw [hd] at h ⊢
      rw [ih h]
      cases as with
      | nil => simp [List.dropWhile] at h
      | cons b bs => exact (List.getLast?_cons_cons).symm
    · simp [List.dropWhile, ha]

theorem mem_dropWhile (p : Char → Bool) :
    ∀ l : List Char, ∀ c, c ∈ l.dropWhile p → c ∈ l := by
  intro l
  induction l with
  | nil => intro c h; simp [List.dropWhile] at h
  | cons a as ih =>
    intro c h
    by_cases ha : p a
    · simp only [List.dropWhile, ha, if_true] at h
      exact List.mem_cons_of_mem a (ih c h)
    · simpa [List.dropWhile, ha] using h

theorem mem_trimList {c : Char} {l : List Char} (h : c ∈ trimList l) : c ∈ l := by
  unfold trimList at h
  rw [List.mem_reverse] at h
  have h₁ := mem_dropWhile isWsChar _ c h
  rw [List.mem_reverse] at h₁
  exact mem_dropWhile isWsChar l c h₁

theorem trimList_idem (l : List Char) : trimList (trimList l) = trimList l := by
  unfold trimList
  generalize ha : l.dropWhile isWsChar = a
  generalize hm : a.reverse.dropWhile isWsChar = m
  have hstep1 : m.reverse.dropWhile isWsChar = m.reverse := by
    apply dropWhile_eq_self_of_head
    intro c hc
    rw [List.head?_reverse] at hc
    have hmne : m ≠ [] := by
      intro he; rw [he] at hc; simp at hc
    rw [← hm] at hc hmne
    rw [getLast?_dropWhile isWsChar a.reverse hmne, List.getLast?_reverse] at hc
    rw [← ha] at hc
    exact dropWhile_head_not isWsChar l c hc
  rw [hstep1, List.reverse_reverse]
  have hstep2 : m.dropWhile isWsChar = m := by
    rw [← hm]; exact dropWhile_idem isWsChar a.reverse
  rw [hstep2]

/-! ## Whitespace tokenization (JS `str.split(/\s+/)` on trimmed input)

On an already-trimmed string, splitting on runs of whitespace yields exactly the
maximal whitespace-free chunks, which is what `words` computes; the JS pipeline
additionally produces one empty token on the empty string, which every caller
immediately maps and rejoins back to the empty string, so the two agree at the
observable level. -/

/-- Negation of `isWsChar`, the predicate of a token character. -/
def notWs (c : Char) : Bool := !(isWsChar c)

/-- Fuel-driven splitter; with fuel at least the length of the input it
computes the maximal whitespace-free chunks, in order. -/
def wordsFuel : Nat → List Char → List (List Char)
  | 0, _ => []
  | _ + 1, [] => []
  | n + 1, c :: cs =>
    if isWsChar c then wordsFuel n cs
    else (c :: cs.takeWhile notWs) :: wordsFuel n (cs.dropWhile notWs)

/-- The maximal whitespace-free chunks of a character list, in order. -/
def words (l : List Char) : List (List Char) :=
  wordsFuel l.length l

theorem wordsFuel_congr :
    ∀ (n m : Nat) (l : List Char), l.length ≤ n → l.length ≤ m →
      wordsFuel n l = wordsFuel m l := by
  intro n
  induction n with
  | zero =>
    intro m l h1 _
    have : l = [] := List.length_eq_zero.mp (Nat.le_zero.mp h1)
    subst this
    cases m <;> rfl
  | succ n ih =>
    intro m l h1 h2
    cases l with
    | nil => cases m <;> rfl
    | cons c cs =>
      cases m with
      | zero => simp at h2
      | succ m =>
        have hc1 : cs.length ≤ n := by
          simp only [List.length_cons] at h1; omega
        have hc2 : cs.length ≤ m := by
          simp only [List.length_cons] at h2; omega
        by_cases hws : isWsChar c
        · simp only [wordsFuel, hws, if_true]
          exact ih m cs hc1 hc2
        · have hd1 : (cs.dropWhile notWs).length ≤ n :=
            Nat.le_trans (dropWhile_length_le notWs cs) hc1
          have hd2 : (cs.dropWhile notWs).length ≤ m :=
            Nat.le_trans (dropWhile_length_le notWs cs) hc2
          simp only [wordsFuel, hws, ih m _ hd1 hd2]
          simp

/-- JS `join(" ")` over character-list tokens. -/
def joinWords : List (List Char) → List Char
  | [] => []
  | [t] => t
  | t :: ts => t ++ ' ' :: joinWords ts

/-- Tokens of a string, as strings. -/
def wordsStr (s : String) : List String :=
  (words s.data).map String.mk

/-- JS `arr.join(" ")` over string tokens. -/
def joinWordsStr (ts : List String) : String :=
  ⟨joinWords (ts.map String.data)⟩

theorem words_nil : words [] = [] := rfl

theorem words_cons_ws {c : Char} (cs : List Char) (h : isWsChar c = true) :
    words (c :: cs) = words cs := by
  unfold words
  simp only [List.length_cons, wordsFuel, h, if_true]

theorem words_cons_not_ws {c : Char} (cs : List Char) (h : isWsChar c = false) :
    words (c :: cs) = (c :: cs.takeWhile notWs) :: words (cs.dropWhile notWs) := by
  unfold words
  simp only [List.length_cons, wordsFuel, h,
    wordsFuel_congr cs.length _ _ (dropWhile_length_le notWs cs) (Nat.le_refl _)]
  simp

theorem words_tokens_shape_aux :
    ∀ (n : Nat) (l : List Char), l.length ≤ n → ∀ t ∈ words l,
      t ≠ [] ∧ (∀ c ∈ t, isWsChar c = false) ∧ (∀ c ∈ t, c ∈ l) := by
  intro n
  induction n with
  | zero =>
    intro l hl t ht
    have : l = [] := List.length_eq_zero.mp (Nat.le_zero.mp hl)
    subst this
    rw [words_nil] at ht
    exact absurd ht (List.not_mem_nil t)
  | succ n ih =>
    intro l hl t ht
    match l with
    | [] =>
      rw [words_nil] at ht
      exact absurd ht (List.not_mem_nil t)
    | c :: cs =>
      have hcs : cs.length ≤ n := by
        simp only [List.length_cons] at hl; omega
      by_cases hc : isWsChar c
      · rw [words_cons_ws cs hc] at ht
        have h := ih cs hcs t ht
        exact ⟨h.1, h.2.1, fun d hd => List.mem_cons_of_mem c (h.2.2 d hd)⟩
      · rw [words_cons_not_ws cs (by simpa using hc)] at ht
        rcases List.mem_cons.mp ht with rfl | ht'
        · refine ⟨by simp, ?_, ?_⟩
          · intro d hd
            rcases List.mem_cons.mp hd with rfl | hd'
            · simpa using hc
            · have : notWs d = true := List.mem_takeWhile_imp hd'
              simpa [notWs] using this
          · intro d hd
            rcases List.mem_cons.mp hd with rfl | hd'
            · exact List.mem_cons_self d cs
            · exact List.mem_cons_of_mem c ((List.takeWhile_sublist notWs).mem hd')
        · have hlen : (cs.dropWhile notWs).length ≤ n :=
            Nat.le_trans (dropWhile_length_le notWs cs) hcs
          have h := ih (cs.dropWhile notWs) hlen t ht'
          refine ⟨h.1, h.2.1, fun d hd => ?_⟩
          exact List.mem_cons_of_mem c ((List.dropWhile_sublist notWs).mem (h.2.2 d hd))

/-- Every token of `words` is nonempty, consists of non-whitespace characters,
and draws its characters from the input. -/
theorem words_tokens_shape (l : List Char) :
    ∀ t ∈ words l, t ≠ [] ∧ (∀ c ∈ t, isWsChar c = false) ∧ (∀ c ∈ t, c ∈ l) :=
  words_tokens_shape_aux l.length l (Nat.le_refl _)

/-- Splitting is a left inverse of joining on nonempty whitespace-free tokens. -/
theorem words_joinWords (ts : List (List Char))
    (hne : ∀ t ∈ ts, t ≠ []) (hws : ∀ t ∈ ts, ∀ c ∈ t, isWsChar c = false) :
    words (joinWords ts) = ts := by
  induction ts with
  | nil => exact words_nil
  | cons t ts ih =>
    have htne : t ≠ [] := hne t (List.mem_cons_self t ts)
    have htws : ∀ c ∈ t, isWsChar c = false :=
      hws t (List.mem_cons_self t ts)
    obtain ⟨c, t', rfl⟩ := List.exists_cons_of_ne_nil htne
    · have hc : isWsChar c = false := htws c (List.mem_cons_self c t')
      have ht'ws : ∀ d ∈ t', notWs d = true := by
        intro d hd
        simp [notWs, htws d (List.mem_cons_of_mem c hd)]
      cases ts with
      | nil =>
        show words (c :: t') = [c :: t']
        rw [words_cons_not_ws t' hc]
        rw [List.takeWhile_eq_self_iff.mpr ht'ws]
        rw [List.dropWhile_eq_nil_iff.mpr (fun d hd => ht'ws d hd)]
        rw [words_nil]
      | cons u us =>
        show words ((c :: t') ++ ' ' :: joinWords (u :: us)) = (c :: t') :: u :: us
        have hjoin : (c :: t') ++ ' ' :: joinWords (u :: us)
            = c :: (t' ++ ' ' :: joinWords (u :: us)) := by simp
        rw [hjoin, words_cons_not_ws _ hc]
        rw [List.takeWhile_append_of_pos ht'ws]
        rw [List.dropWhile_append_of_pos ht'ws]
        have : List.takeWhile notWs (' ' :: joinWords (u :: us)) = [] := by
          simp [List.takeWhile, notWs, isWsChar]
        rw [this]
        have hdrop : List.dropWhile notWs (' ' :: joinWords (u :: us))
            = ' ' :: joinWords (u :: us) := by
          simp [List.dropWhile, notWs, isWsChar]
        rw [hdrop, words_cons_ws _ (by simp [isWsChar])]
        have ihr := ih (fun x hx => hne x (List.mem_cons_of_mem _ hx))
          (fun x hx => hws x (List.mem_cons_of_mem _ hx))
        rw [ihr]
        simp

/-! ## Query sanitizer and bilingual query expansion (index.ts lines 90-93 and 228-287) -/

/-- The character replacement of `q.replace(/[,%]/g, " ")`. -/
def replaceCommaPct (c : Char) : Char :=
  if c = ',' ∨ c = '%' then ' ' else c

/-- The function `sanitizeQuery`: replace every comma and percent by a space, then trim. -/
def sanitizeQuery (q : String) : String :=
  trimStr ⟨q.data.map replaceCommaPct⟩

/-- The `QUERY_SYNONYMS` table: common tech terms mapped to what is in the DB. -/
def QUERY_SYNONYMS : List (String × String) :=
  [("stylus", "S Pen"), ("ستايلس", "S Pen"), ("قلم", "S Pen"),
   ("foldable", "foldable"), ("فولدابل", "foldable"), ("قابل للطي", "foldable"),
   ("tws", "true wireless"), ("anc", "noise cancell"),
   ("noise cancelling", "noise cancell"), ("إلغاء الضوضاء", "noise cancell"),
   ("سماعة", "headphone"), ("سماعات", "headphone"),
   ("ايربودز", "earbuds"), ("ايربود", "earbuds"),
   ("gaming", "gaming"), ("جيمينج", "gaming"), ("ألعاب", "gaming"),
   ("شاحن", "charger"), ("كيبورد", "keyboard"), ("لوحة مفاتيح", "keyboard"),
   ("ماوس", "mouse"), ("فأرة", "mouse"), ("ماوس باد", "mouse pad"),
   ("كنترولر", "controller"), ("يد تحكم", "controller"), ("ويب كام", "webcam"),
   ("كاميرا", "webcam camera"), ("مايك", "microphone"), ("ميكروفون", "microphone"),
   ("هاب", "hub"),
   ("سريع", "fast"), ("لاسلكي", "wireless"), ("سلكي", "wired"),
   ("ميكانيكي", "mechanical")]

/-- JS `QUERY_SYNONYMS[w]` (every value of the table is a nonempty string, so
JS truthiness coincides with key presence). -/
def synLookup (w : String) : Option String :=
  (QUERY_SYNONYMS.find? (fun p => p.1 == w)).map (fun p => p.2)

/-- The word-by-word expansion of an already lowercased and trimmed query:
map every token through the synonym table (unmapped tokens pass through) and
rejoin with single spaces. -/
def expandedOf (lower : String) : String :=
  joinWordsStr ((wordsStr lower).map (fun w => (synLookup w).getD w))

/-- The function `expandQuery` (index.ts lines 272-287): lowercase and trim, try the whole
string in the synonym table, otherwise expand word by word and rejoin; return
the original string when expansion changes nothing. The JS locals `lower` and
`expanded` are inlined. -/
def expandQuery (q : String) : String :=
  match synLookup (trimStr (lowerStr q)) with
  | some v => v
  | none =>
    if expandedOf (trimStr (lowerStr q)) = trimStr (lowerStr q) then q
    else expandedOf (trimStr (lowerStr q))

/-- The canonical catalog-search terms: the values of the synonym table. -/
def canonicalTerms : List String :=
  QUERY_SYNONYMS.map (fun p => p.2)

example : expandQuery "stylus" = "S Pen" := by decide
example : expandQuery "ايربودز لاسلكي" = "earbuds wireless" := by decide
example : expandQuery "Wireless Mouse" = "Wireless Mouse" := by decide
example : sanitizeQuery " a,b% " = "a b" := by decide

/-! ### Finite facts about the synonym table, established by computation -/

theorem syn_pair_canonical_self :
    ∀ p ∈ QUERY_SYNONYMS, (∀ t ∈ wordsStr p.1, t ∈ canonicalTerms) → p.2 = p.1 := by
  decide

theorem canonical_token_fix :
    ∀ t ∈ canonicalTerms, (synLookup t).getD t = t := by
  decide

theorem synLookup_canonical_tokens {k v : String} (h : synLookup k = some v)
    (hcanon : ∀ t ∈ wordsStr k, t ∈ canonicalTerms) : v = k := by
  unfold synLookup at h
  cases hf : QUERY_SYNONYMS.find? (fun p => p.1 == k) with
  | none => rw [hf] at h; simp at h
  | some p =>
    rw [hf] at h
    simp only [Option.map_some'] at h
    have hk : p.1 = k := by
      have := List.find?_some hf
      simpa using this
    have hmem := List.mem_of_find?_eq_some hf
    have hself := syn_pair_canonical_self p hmem (by rw [hk]; exact hcanon)
    have hv : v = p.2 := by simpa using h.symm
    rw [hv, hself, hk]

/-! ### Normal forms: strings fixed by lowercasing and trimming -/

theorem trimList_eq_self (l : List Char)
    (hhead : ∀ c, l.head? = some c → isWsChar c = false)
    (hlast : ∀ c, l.getLast? = some c → isWsChar c = false) :
    trimList l = l := by
  unfold trimList
  rw [dropWhile_eq_self_of_head _ _ hhead]
  rw [dropWhile_eq_self_of_head _ _
    (fun c hc => hlast c (by rwa [List.head?_reverse] at hc))]
  exact List.reverse_reverse l

theorem joinWords_cons_cons (t u : List Char) (us : List (List Char)) :
    joinWords (t :: u :: us) = t ++ ' ' :: joinWords (u :: us) := rfl

theorem mem_joinWords :
    ∀ (ts : List (List Char)) (c : Char),
      c ∈ joinWords ts → c = ' ' ∨ ∃ t ∈ ts, c ∈ t := by
  intro ts
  induction ts with
  | nil => intro c h; simp [joinWords] at h
  | cons t ts ih =>
    intro c h
    cases ts with
    | nil =>
      right
      exact ⟨t, List.mem_cons_self t [], by simpa [joinWords] using h⟩
    | cons u us =>
      rw [joinWords_cons_cons] at h
      rcases List.mem_append.mp h with h1 | h2
      · right; exact ⟨t, List.mem_cons_self t _, h1⟩
      · rcases List.mem_cons.mp h2 with rfl | h3
        · left; rfl
        · rcases ih c h3 with h4 | ⟨w, hw, hcw⟩
          · left; exact h4
          · right; exact ⟨w, List.mem_cons_of_mem _ hw, hcw⟩

theorem joinWords_ne_nil (t : List Char) (ts : List (List Char)) (ht : t ≠ []) :
    joinWords (t :: ts) ≠ [] := by
  cases ts with
  | nil => simpa [joinWords] using ht
  | cons u us =>
    rw [joinWords_cons_cons]
    intro he
    exact absurd (List.append_eq_nil.mp he).2 (by simp)

theorem joinWords_head? (t : List Char) (ts : List (List Char)) (ht : t ≠ []) :
    (joinWords (t :: ts)).head? = t.head? := by
  cases ts with
  | nil => rfl
  | cons u us =>
    rw [joinWords_cons_cons, List.head?_append]
    obtain ⟨c, t', rfl⟩ := List.exists_cons_of_ne_nil ht
    rfl

theorem joinWords_getLast?_mem :
    ∀ (ts : List (List Char)), (∀ t ∈ ts, t ≠ []) →
      ∀ c, (joinWords ts).getLast? = some c → ∃ t ∈ ts, t.getLast? = some c := by
  intro ts
  induction ts with
  | nil => intro _ c hc; simp [joinWords] at hc
  | cons t ts ih =>
    intro hne c hc
    cases ts with
    | nil =>
      exact ⟨t, List.mem_cons_self t [], by simpa [joinWords] using hc⟩
    | cons u us =>
      rw [joinWords_cons_cons, List.getLast?_append] at hc
      have hjne : joinWords (u :: us) ≠ [] :=
        joinWords_ne_nil u us (hne u (List.mem_cons_of_mem t (List.mem_cons_self u us)))
      obtain ⟨d, j', hj⟩ := List.exists_cons_of_ne_nil hjne
      rw [hj, List.getLast?_cons_cons] at hc
      cases hg : (d :: j').getLast? with
      | none => exact absurd (List.getLast?_eq_none_iff.mp hg) (by simp)
      | some e =>
        rw [hg] at hc
        have hec : e = c := by simpa using hc
        have hjc : (joinWords (u :: us)).getLast? = some c := by
          rw [hj, hg, hec]
        obtain ⟨w, hw, hwc⟩ :=
          ih (fun x hx => hne x (List.mem_cons_of_mem t hx)) c hjc
        exact ⟨w, List.mem_cons_of_mem t hw, hwc⟩

theorem trimList_joinWords (ts : List (List Char))
    (hne : ∀ t ∈ ts, t ≠ []) (hws : ∀ t ∈ ts, ∀ c ∈ t, isWsChar c = false) :
    trimList (joinWords ts) = joinWords ts := by
  apply trimList_eq_self
  · intro c hc
    cases ts with
    | nil => simp [joinWords] at hc
    | cons t ts' =>
      rw [joinWords_head? t ts' (hne t (List.mem_cons_self t ts'))] at hc
      exact hws t (List.mem_cons_self t ts') c (List.mem_of_mem_head? hc)
  · intro c hc
    obtain ⟨t, ht, htc⟩ := joinWords_getLast?_mem ts hne c hc
    exact hws t ht c (List.mem_of_mem_getLast? htc)

theorem map_data_map_mk (W : List (List Char)) :
    (W.map String.mk).map String.data = W := by
  rw [List.map_map]
  exact List.map_id W

theorem joinWordsStr_map_mk (W : List (List Char)) :
    (joinWordsStr (W.map String.mk)).data = joinWords W := by
  show (joinWords ((W.map String.mk).map String.data)) = joinWords W
  rw [map_data_map_mk]

theorem norm_eq_self (s : String)
    (hlower : ∀ c ∈ s.data, lowerChar c = c)
    (htrim : trimList s.data = s.data) :
    trimStr (lowerStr s) = s := by
  have h1 : s.data.map lowerChar = s.data := by
    calc s.data.map lowerChar = s.data.map id := List.map_congr_left hlower
    _ = s.data := List.map_id s.data
  show (⟨trimList (s.data.map lowerChar)⟩ : String) = s
  rw [h1, htrim]

theorem normQ_chars_lower (x : String) :
    ∀ c ∈ (trimStr (lowerStr x)).data, lowerChar c = c := by
  intro c hc
  exact lowerChar_fix_of_mem_lower (mem_trimList hc)

theorem normQ_idem (x : String) :
    trimStr (lowerStr (trimStr (lowerStr x))) = trimStr (lowerStr x) :=
  norm_eq_self _ (normQ_chars_lower x) (trimList_idem _)

/-! ### Idempotence of query expansion on canonical inputs (claim C7) -/

theorem expandQuery_of_lookup {q v : String}
    (h : synLookup (trimStr (lowerStr q)) = some v) : expandQuery q = v := by
  unfold expandQuery
  rw [h]

theorem expandQuery_of_none_eq {q : String}
    (h : synLookup (trimStr (lowerStr q)) = none)
    (he : expandedOf (trimStr (lowerStr q)) = trimStr (lowerStr q)) :
    expandQuery q = q := by
  unfold expandQuery
  rw [h]
  simp [he]

theorem expandQuery_of_none_ne {q : String}
    (h : synLookup (trimStr (lowerStr q)) = none)
    (he : expandedOf (trimStr (lowerStr q)) ≠ trimStr (lowerStr q)) :
    expandQuery q = expandedOf (trimStr (lowerStr q)) := by
  unfold expandQuery
  rw [h]
  rw [if_neg he]

/-- Claim C7. The query normalizer is idempotent on inputs all of whose tokens
(after the lowercasing and trimming the normalizer itself performs) are already
canonical catalog-search terms, i.e. values of the synonym table:
`expandQuery (expandQuery x) = expandQuery x`. -/
theorem expandQuery_idem_canonical (x : String)
    (h : ∀ t ∈ wordsStr (trimStr (lowerStr x)), t ∈ canonicalTerms) :
    expandQuery (expandQuery x) = expandQuery x := by
  have hnormL : trimStr (lowerStr (trimStr (lowerStr x))) = trimStr (lowerStr x) :=
    normQ_idem x
  cases hlook : synLookup (trimStr (lowerStr x)) with
  | some v =>
    have hv : v = trimStr (lowerStr x) := synLookup_canonical_tokens hlook h
    have h1 : expandQuery x = trimStr (lowerStr x) := by
      rw [expandQuery_of_lookup hlook, hv]
    have h2 : expandQuery (trimStr (lowerStr x)) = trimStr (lowerStr x) := by
      have hl2 : synLookup (trimStr (lowerStr (trimStr (lowerStr x))))
          = some (trimStr (lowerStr x)) := by
        rw [hnormL, hlook, hv]
      rw [expandQuery_of_lookup hl2]
    rw [h1, h2]
  | none =>
    have hmap : (wordsStr (trimStr (lowerStr x))).map (fun w => (synLookup w).getD w)
        = wordsStr (trimStr (lowerStr x)) := by
      calc (wordsStr (trimStr (lowerStr x))).map (fun w => (synLookup w).getD w)
          = (wordsStr (trimStr (lowerStr x))).map id :=
            List.map_congr_left (fun w hw => canonical_token_fix w (h w hw))
      _ = wordsStr (trimStr (lowerStr x)) := List.map_id _
    have hshape := words_tokens_shape (trimStr (lowerStr x)).data
    have hne : ∀ t ∈ words (trimStr (lowerStr x)).data, t ≠ [] :=
      fun t ht => (hshape t ht).1
    have hws : ∀ t ∈ words (trimStr (lowerStr x)).data, ∀ c ∈ t, isWsChar c = false :=
      fun t ht => (hshape t ht).2.1
    have hEdata : (joinWordsStr (wordsStr (trimStr (lowerStr x)))).data
        = joinWords (words (trimStr (lowerStr x)).data) :=
      joinWordsStr_map_mk _
    have hexp : expandedOf (trimStr (lowerStr x))
        = joinWordsStr (wordsStr (trimStr (lowerStr x))) := by
      unfold expandedOf
      rw [hmap]
    by_cases hiff : expandedOf (trimStr (lowerStr x)) = trimStr (lowerStr x)
    · have h1 : expandQuery x = x := expandQuery_of_none_eq hlook hiff
      rw [h1]
      exact h1
    · have h1 : expandQuery x = joinWordsStr (wordsStr (trimStr (lowerStr x))) := by
        rw [expandQuery_of_none_ne hlook hiff, hexp]
      -- The expanded string is fixed by lowercasing and trimming.
      have hElower : ∀ c ∈ (joinWordsStr (wordsStr (trimStr (lowerStr x)))).data,
          lowerChar c = c := by
        intro c hc
        rw [hEdata] at hc
        rcases mem_joinWords _ c hc with rfl | ⟨t, ht, hct⟩
        · decide
        · exact normQ_chars_lower x c ((hshape t ht).2.2 c hct)
      have hEtrim : trimList (joinWordsStr (wordsStr (trimStr (lowerStr x)))).data
          = (joinWordsStr (wordsStr (trimStr (lowerStr x)))).data := by
        rw [hEdata]
        exact trimList_joinWords _ hne hws
      have hEnorm : trimStr (lowerStr (joinWordsStr (wordsStr (trimStr (lowerStr x)))))
          = joinWordsStr (wordsStr (trimStr (lowerStr x))) :=
        norm_eq_self _ hElower hEtrim
      -- The expanded string re-splits into the same tokens.
      have hwordsE : words (joinWordsStr (wordsStr (trimStr (lowerStr x)))).data
          = words (trimStr (lowerStr x)).data := by
        rw [hEdata]
        exact words_joinWords _ hne hws
      have hwordsStrE : wordsStr (joinWordsStr (wordsStr (trimStr (lowerStr x))))
          = wordsStr (trimStr (lowerStr x)) := by
        show (words (joinWordsStr (wordsStr (trimStr (lowerStr x)))).data).map String.mk
            = (words (trimStr (lowerStr x)).data).map String.mk
        rw [hwordsE]
      rw [h1]
      cases hlookE : synLookup (joinWordsStr (wordsStr (trimStr (lowerStr x)))) with
      | some u =>
        have hu : u = joinWordsStr (wordsStr (trimStr (lowerStr x))) :=
          synLookup_canonical_tokens hlookE (by rw [hwordsStrE]; exact h)
        have h2 : expandQuery (joinWordsStr (wordsStr (trimStr (lowerStr x)))) = u :=
          expandQuery_of_lookup (by rw [hEnorm, hlookE])
        rw [h2, hu]
      | none =>
        have hfix : expandedOf (trimStr (lowerStr
            (joinWordsStr (wordsStr (trimStr (lowerStr x))))))
            = trimStr (lowerStr (joinWordsStr (wordsStr (trimStr (lowerStr x))))) := by
          rw [hEnorm]
          unfold expandedOf
          rw [hwordsStrE, hmap]
        exact expandQuery_of_none_eq (by rw [hEnorm, hlookE]) hfix

/-- Witness for C7 at the concrete canonical input "wireless headphone". -/
theorem expandQuery_idem_canonical_witness :
    (∀ t ∈ wordsStr (trimStr (lowerStr "wireless headphone")), t ∈ canonicalTerms) ∧
      expandQuery (expandQuery "wireless headphone") = expandQuery "wireless headphone" :=
  ⟨by decide, expandQuery_idem_canonical "wireless headphone" (by decide)⟩

/-! ## Catalog model and tool executors (index.ts lines 289-390) -/

/-- A catalog row as selected by the executors; prices are modelled at integer
granularity (EGP amounts). -/
structure Product where
  id : String
  name : String
  description : String
  specs : String
  price : Int
  category : String
  brand : String
  image_url : String
deriving DecidableEq

/-- PostgREST `ilike '%pat%'`: case-insensitive substring match. -/
def ilikeContains (field pat : String) : Bool :=
  containsStr (lowerStr field) (lowerStr pat)

/-- Untyped JS tool-call arguments after the handler's numeric coercion step:
absent, null and non-usable fields are `none` (a non-array `ids` is `none`);
the executors themselves test JS truthiness of the string fields, so an empty
string stays `some ""`. -/
structure Args where
  query : Option String := none
  category : Option String := none
  brand : Option String := none
  min_price : Option Int := none
  max_price : Option Int := none
  sort : Option String := none
  ids : Option (List String) := none
deriving DecidableEq

/-- Insertion into a list sorted by `le`. -/
def insertByLe (le : Product → Product → Bool) (p : Product) :
    List Product → List Product
  | [] => [p]
  | q :: qs => if le p q then p :: q :: qs else q :: insertByLe le p qs

/-- Insertion sort, modelling the catalog's `order` primitive. -/
def sortByLe (le : Product → Product → Bool) : List Product → List Product
  | [] => []
  | p :: ps => insertByLe le p (sortByLe le ps)

def priceAsc (p q : Product) : Bool := decide (p.price ≤ q.price)

def priceDesc (p q : Product) : Bool := decide (q.price ≤ p.price)

theorem length_insertByLe (le : Product → Product → Bool) (p : Product) :
    ∀ l : List Product, (insertByLe le p l).length = l.length + 1 := by
  intro l
  induction l with
  | nil => rfl
  | cons q qs ih =>
    by_cases h : le p q
    · simp [insertByLe, h]
    · simp [insertByLe, h, ih]

theorem length_sortByLe (le : Product → Product → Bool) :
    ∀ l : List Product, (sortByLe le l).length = l.length := by
  intro l
  induction l with
  | nil => rfl
  | cons p ps ih => simp [sortByLe, length_insertByLe, ih]

/-- A keyword matches a row when it occurs case-insensitively in the name,
description, brand or specs field (the four `ilike` disjuncts of the `or`). -/
def matchesKeyword (p : Product) (kw : String) : Bool :=
  ilikeContains p.name kw || ilikeContains p.description kw ||
    ilikeContains p.brand kw || ilikeContains p.specs kw

/-- The row predicate of `execSearchProducts`: conjunction of the category,
brand, price-bound and keyword filters (the single-keyword and multi-keyword
branches of the source both OR each keyword across the four fields). -/
def searchPred (args : Args) (query : String) (p : Product) : Bool :=
  (match args.category with
    | some c => if c = "" then true else p.category == c
    | none => true) &&
  (match args.brand with
    | some b => if b = "" then true else ilikeContains p.brand (sanitizeQuery b)
    | none => true) &&
  (match args.min_price with
    | some m => decide (m ≤ p.price)
    | none => true) &&
  (match args.max_price with
    | some m => decide (p.price ≤ m)
    | none => true) &&
  (if query = "" then true
   else (wordsStr (trimStr query)).any (fun kw => matchesKeyword p kw))

/-- The executor `execSearchProducts` (index.ts lines 291-332): sanitize and expand the
query, apply the filters, order by price when requested, and hard-cap the
result at 5 rows. The model database never errors. -/
def execSearchProducts (catalog : List Product) (args : Args) : List Product :=
  let rawQuery := match args.query with
    | some s => if s = "" then "" else sanitizeQuery s
    | none => ""
  let query := if rawQuery = "" then "" else expandQuery rawQuery
  let filtered := catalog.filter (searchPred args query)
  let sorted :=
    if args.sort = some "price_asc" then sortByLe priceAsc filtered
    else if args.sort = some "price_desc" then sortByLe priceDesc filtered
    else filtered
  sorted.take 5

/-- The executor `execGetPriceRange` (index.ts lines 334-375): cheapest price, most
expensive price, row count, echoed category. -/
def execGetPriceRange (catalog : List Product) (args : Args) :
    Option Int × Option Int × Nat × String :=
  let rows := match args.category with
    | some c => if c = "" then catalog else catalog.filter (fun p => p.category == c)
    | none => catalog
  (((sortByLe priceAsc rows).take 1).head?.map (fun p => p.price),
   ((sortByLe priceDesc rows).take 1).head?.map (fun p => p.price),
   rows.length,
   match args.category with
     | some c => if c = "" then "all" else c
     | none => "all")

/-- Result of `execShowProducts`, together with whether a catalog query was
issued at all (the short-circuit of the empty-ids case issues none). -/
structure ShowResult where
  products : List Product
  queried : Bool
deriving DecidableEq

/-- The executor `execShowProducts` (index.ts lines 377-390): keep the usable ids
(`map(String).filter(Boolean)` drops empty strings; a non-array `ids` yields
none), short-circuit on an empty list, otherwise select by id membership. -/
def execShowProducts (catalog : List Product) (args : Args) : ShowResult :=
  let ids := (args.ids.getD []).filter (fun s => s != "")
  if ids = [] then ⟨[], false⟩
  else ⟨catalog.filter (fun p => ids.contains p.id), true⟩

/-- Claim C6. For every filter combination and catalog state, the search
executor returns at most 5 rows, even when more rows match. -/
theorem search_products_cap (catalog : List Product) (args : Args) :
    (execSearchProducts catalog args).length ≤ 5 := by
  apply List.length_take_le

/-- Claim C8. When the ids argument yields no usable ids (absent, a non-list,
an empty list, or only empty strings), show_products returns an empty product
list without issuing a catalog query. -/
theorem show_products_empty_ids (catalog : List Product) (args : Args)
    (h : (args.ids.getD []).filter (fun s => s != "") = []) :
    execShowProducts catalog args = ⟨[], false⟩ := by
  unfold execShowProducts
  rw [h]
  rfl

/-- Witness for C8: a list of two empty-string ids yields no usable ids and
short-circuits. -/
theorem show_products_empty_ids_witness :
    ((some [("" : String), ""]).getD []).filter (fun s => s != "") = [] ∧
      execShowProducts [] { ids := some ["", ""] } = ⟨[], false⟩ :=
  ⟨by decide, show_products_empty_ids [] { ids := some ["", ""] } (by decide)⟩

/-- Modelled from the claim's reading of the spec for C9: sanitize interpreted
as REMOVING (stripping) every comma and percent character, then trimming. This
is compared against the source definition `sanitizeQuery`, which replaces those
characters by spaces instead. -/
def sanitizeStripSpec (q : String) : String :=
  trimStr ⟨q.data.filter (fun c => !(c == ',' || c == '%'))⟩

/-- Counterexample for C9 as stated: on "a,b" the source sanitizer yields
"a b" (comma replaced by a space), not the claimed stripped form "ab". -/
theorem sanitizeQuery_strip_counterexample :
    sanitizeQuery "a,b" = "a b" ∧ sanitizeStripSpec "a,b" = "ab" ∧
      sanitizeQuery "a,b" ≠ sanitizeStripSpec "a,b" := by
  decide

/-- Claim C9 amended: sanitize replaces every comma and percent character by a
space and trims the result; the output contains no comma and no percent. -/
theorem sanitizeQuery_amended (q : String) :
    sanitizeQuery q = trimStr ⟨q.data.map replaceCommaPct⟩ ∧
      ∀ c ∈ (sanitizeQuery q).data, c ≠ ',' ∧ c ≠ '%' := by
  refine ⟨rfl, ?_⟩
  intro c hc
  have h1 : c ∈ q.data.map replaceCommaPct := mem_trimList hc
  rcases List.mem_map.mp h1 with ⟨c0, _, rfl⟩
  unfold replaceCommaPct
  by_cases h : c0 = ',' ∨ c0 = '%'
  · rw [if_pos h]
    exact ⟨by decide, by decide⟩
  · rw [if_neg h]
    push_neg at h
    exact h

/-- Witness for the amended C9 at a concrete input. -/
theorem sanitizeQuery_amended_witness :
    sanitizeQuery "x,y" = trimStr ⟨("x,y" : String).data.map replaceCommaPct⟩ ∧
      ('x' ≠ ',' ∧ 'x' ≠ '%') :=
  ⟨(sanitizeQuery_amended "x,y").1, (sanitizeQuery_amended "x,y").2 'x' (by decide)⟩

/-! ## Rate limiter: the SQL function check_and_increment_chat_rate_limit -/

/-- A row of `chat_rate_limits` for one identity; timestamps in epoch seconds. -/
structure RateLimitRow where
  window_start : Int
  count : Int
  updated_at : Int
deriving DecidableEq

/-- The row returned by the SQL function. -/
structure RateLimitResult where
  allowed : Bool
  remaining : Int
  reset_at : Int
deriving DecidableEq

/-- The SQL function `check_and_increment_chat_rate_limit` acting on the
identity's counter row: insert a fresh row if absent, reset the window in the
local variables when expired, deny without touching the stored row when the
count is exhausted, otherwise increment and persist. Returns the result row
and the stored row after the call. -/
def checkAndIncrement (now windowSeconds maxCount : Int)
    (row? : Option RateLimitRow) : RateLimitResult × RateLimitRow :=
  let row := row?.getD ⟨now, 0, now⟩
  let v_ws := if now - row.window_start ≥ windowSeconds then now else row.window_start
  let v_cnt := if now - row.window_start ≥ windowSeconds then 0 else row.count
  if v_cnt ≥ maxCount then
    (⟨false, 0, v_ws + windowSeconds⟩, row)
  else
    (⟨true, max 0 (maxCount - (v_cnt + 1)), v_ws + windowSeconds⟩,
      ⟨v_ws, v_cnt + 1, now⟩)

/-- Claim C1. The rate limiter satisfies the spec contract: a missing row
behaves as a fresh row with count 0 and window_start now; with the window
reset applied to the local variables before evaluation, an exhausted count is
denied with remaining 0 and resetAt window_start + windowSeconds without
touching the stored row, and otherwise the count is incremented and admitted
with remaining maxCount - count; in particular an exhausted counter whose
window has expired is admitted with count 1 after admission (for a positive
maxCount). -/
theorem rate_limit_contract (now w m : Int) (row : RateLimitRow) :
    (checkAndIncrement now w m none = checkAndIncrement now w m (some ⟨now, 0, now⟩)) ∧
    ((if now - row.window_start ≥ w then 0 else row.count) ≥ m →
       checkAndIncrement now w m (some row)
         = (⟨false, 0,
              (if now - row.window_start ≥ w then now else row.window_start) + w⟩,
            row)) ∧
    ((if now - row.window_start ≥ w then 0 else row.count) < m →
       checkAndIncrement now w m (some row)
         = (⟨true, m - ((if now - row.window_start ≥ w then 0 else row.count) + 1),
              (if now - row.window_start ≥ w then now else row.window_start) + w⟩,
            ⟨if now - row.window_start ≥ w then now else row.window_start,
             (if now - row.window_start ≥ w then 0 else row.count) + 1, now⟩)) ∧
    (now - row.window_start ≥ w → row.count ≥ m → 1 ≤ m →
       (checkAndIncrement now w m (some row)).1.allowed = true ∧
       (checkAndIncrement now w m (some row)).2.count = 1) := by
  refine ⟨rfl, ?_, ?_, ?_⟩
  · intro hge
    unfold checkAndIncrement
    simp only [Option.getD_some]
    rw [if_pos hge]
  · intro hlt
    unfold checkAndIncrement
    simp only [Option.getD_some]
    rw [if_neg (by omega)]
    have hmax : max 0 (m - ((if now - row.window_start ≥ w then 0 else row.count) + 1))
        = m - ((if now - row.window_start ≥ w then 0 else row.count) + 1) := by
      by_cases hr : now - row.window_start ≥ w
      · rw [if_pos hr] at hlt ⊢; omega
      · rw [if_neg hr] at hlt ⊢; omega
    rw [hmax]
  · intro hr hc hm
    unfold checkAndIncrement
    simp only [Option.getD_some]
    rw [if_pos hr, if_pos hr, if_neg (by omega)]
    exact ⟨rfl, rfl⟩

/-- Witness for C1: the window-reset admission at a concrete exhausted row. -/
theorem rate_limit_contract_witness :
    (checkAndIncrement 1000 600 20 (some ⟨0, 20, 0⟩)).1.allowed = true ∧
      (checkAndIncrement 1000 600 20 (some ⟨0, 20, 0⟩)).2.count = 1 :=
  (rate_limit_contract 1000 600 20 ⟨0, 20, 0⟩).2.2.2 (by decide) (by decide) (by decide)

/-! ## Model Gateway: groqChat (index.ts lines 95-226)

The provider is an oracle `behavior : key index → payload → FetchOutcome`; the
body parser (`JSON.parse` of a 2xx body) is an oracle `parse`, and
`tryParseGroqError(...)?.error?.message` is an oracle `parseErrMsgOf`. The
gateway returns the call result together with the log of every fetch issued,
as (key index, payload) pairs in order. -/

/-- A chat message of the provider payload. -/
structure ChatMsg where
  role : String
  content : String
deriving DecidableEq

/-- The request payload; only the message list is touched by the gateway (model
name, temperature, tools and tool_choice ride along unchanged and are elided). -/
structure GroqPayload where
  messages : List ChatMsg
deriving DecidableEq

/-- Outcome of one `fetch` to the provider with a given credential. -/
inductive FetchOutcome where
  | response (status : Nat) (body : String)
  | networkError (msg : String)
deriving DecidableEq

/-- JS `res.ok`: HTTP status in the 2xx range. -/
def statusOk (st : Nat) : Bool :=
  decide (200 ≤ st) && decide (st < 300)

/-- The predicate `isRateLimit` (index.ts lines 102-109). -/
def isRateLimit (st : Nat) (body : String) : Bool :=
  st == 429 || containsStr (lowerStr body) "rate limit" ||
    containsStr (lowerStr body) "rate_limit_exceeded"

/-- The predicate `isToolCallValidationFailure` (index.ts lines 111-119). -/
def isToolCallValidationFailure (st : Nat) (body : String) : Bool :=
  st == 400 &&
    (containsStr (lowerStr body) "tool call validation failed" ||
     containsStr (lowerStr body) "tool_use_failed" ||
     containsStr (lowerStr body) "invalid_request_error")

/-- The corrective instruction text built by `withToolSchemaRepairHint`. -/
def repairText (parseErrMsgOf : String → Option String) (body : String) : String :=
  String.intercalate "\n"
    (["Tool call repair instruction:",
      "- When calling tools, NEVER send null for optional fields.",
      "- If a field is unknown, OMIT the key entirely.",
      "- Ensure argument types match the JSON schema exactly."] ++
     (match parseErrMsgOf body with
      | some m => if m = "" then [] else ["Groq validation error was: " ++ m]
      | none => []))

/-- The function `withToolSchemaRepairHint`: append the repair instruction as a trailing
system message. -/
def withToolSchemaRepairHint (parseErrMsgOf : String → Option String)
    (p : GroqPayload) (body : String) : GroqPayload :=
  ⟨p.messages ++ [⟨"system", repairText parseErrMsgOf body⟩]⟩

/-- Outcome of the try-block of one credential iteration: a parsed completion,
a `continue` to the next key (rate limit with keys remaining), or a thrown
error that the catch handler will see. -/
inductive TryOut (α : Type) where
  | ok (value : α)
  | continued (lastErr : String)
  | thrown (msg : String)
deriving DecidableEq

/-- Handling of the final response of one credential (index.ts lines 194-213):
parse on 2xx (a parse failure throws), otherwise record the Groq error and
either continue to the next key on a rate limit or throw. -/
def finishKey {α : Type} (parse : String → Option α) (n i st : Nat)
    (body : String) : TryOut α :=
  if statusOk st then
    match parse body with
    | some c => .ok c
    | none => .thrown ("Groq response JSON parse error. Body: " ++ body)
  else
    if isRateLimit st body && decide (i < n - 1) then
      .continued ("Groq error (" ++ toString st ++ "): " ++ body)
    else .thrown ("Groq error (" ++ toString st ++ "): " ++ body)

/-- The try-block for credential `i` of `n` (index.ts lines 165-213): fetch,
retry once with the repair hint on a schema-validation failure, then finish on
the final response. Also returns the payloads fetched with this credential. -/
def tryKey {α : Type} (behavior : Nat → GroqPayload → FetchOutcome)
    (parse : String → Option α) (parseErrMsgOf : String → Option String)
    (n i : Nat) (payload : GroqPayload) : TryOut α × List GroqPayload :=
  match behavior i payload with
  | .networkError m => (.thrown m, [payload])
  | .response st1 body1 =>
    if !statusOk st1 && isToolCallValidationFailure st1 body1 then
      match behavior i (withToolSchemaRepairHint parseErrMsgOf payload body1) with
      | .networkError m =>
        (.thrown m, [payload, withToolSchemaRepairHint parseErrMsgOf payload body1])
      | .response st2 body2 =>
        (finishKey parse n i st2 body2,
         [payload, withToolSchemaRepairHint parseErrMsgOf payload body1])
    else (finishKey parse n i st1 body1, [payload])

/-- The credential loop from index `i` with `rem` iterations left (index.ts
lines 158-223): a thrown error is caught by the catch handler, wrapped as a
fetch error, and rotates to the next credential whenever one remains. -/
def groqChatGo {α : Type} (behavior : Nat → GroqPayload → FetchOutcome)
    (parse : String → Option α) (parseErrMsgOf : String → Option String)
    (n : Nat) (payload : GroqPayload) :
    Nat → Nat → Option String → Except String α × List (Nat × GroqPayload)
  | _, 0, lastErr => (.error (lastErr.getD "Groq error: no usable API keys"), [])
  | i, rem + 1, _ =>
    match (tryKey behavior parse parseErrMsgOf n i payload).1 with
    | .ok c => (.ok c, (tryKey behavior parse parseErrMsgOf n i payload).2.map (fun p => (i, p)))
    | .continued e =>
      ((groqChatGo behavior parse parseErrMsgOf n payload (i + 1) rem (some e)).1,
       (tryKey behavior parse parseErrMsgOf n i payload).2.map (fun p => (i, p)) ++
         (groqChatGo behavior parse parseErrMsgOf n payload (i + 1) rem (some e)).2)
    | .thrown e =>
      if i < n - 1 then
        ((groqChatGo behavior parse parseErrMsgOf n payload (i + 1) rem
            (some ("Groq fetch error: " ++ e))).1,
         (tryKey behavior parse parseErrMsgOf n i payload).2.map (fun p => (i, p)) ++
           (groqChatGo behavior parse parseErrMsgOf n payload (i + 1) rem
             (some ("Groq fetch error: " ++ e))).2)
      else
        (.error ("Groq fetch error: " ++ e),
         (tryKey behavior parse parseErrMsgOf n i payload).2.map (fun p => (i, p)))

/-- The gateway `groqChat`: guard on an empty credential list, then run the credential
loop from the first key. -/
def groqChat {α : Type} (keys : List String)
    (behavior : Nat → GroqPayload → FetchOutcome) (parse : String → Option α)
    (parseErrMsgOf : String → Option String) (payload : GroqPayload) :
    Except String α × List (Nat × GroqPayload) :=
  if keys.length = 0 then
    (.error "Missing Groq API key(s). Set GROQ_API_KEYS or GROQ_API_KEY/GROQ_API_KEY_1..3",
     [])
  else
    groqChatGo behavior parse parseErrMsgOf keys.length payload 0 keys.length none

/-! ### Claim C3: rotation on non-rate-limit provider failures -/

/-- Provider behavior for the C3 evaluation: credential 0 fails with a plain
HTTP 500 carrying no rate-limit indication, credential 1 succeeds. -/
def c3Behavior : Nat → GroqPayload → FetchOutcome := fun i _ =>
  if i = 0 then .response 500 "internal server error" else .response 200 "OKBODY"

/-- Body parser for the C3 evaluation. -/
def c3Parse : String → Option String := fun b =>
  if b = "OKBODY" then some "done" else none

/-- The C3 run: two credentials, first fails with a non-rate-limit error. -/
def c3Run : Except String String × List (Nat × GroqPayload) :=
  groqChat ["k1", "k2"] c3Behavior c3Parse (fun _ => none) ⟨[]⟩

/-- Claim C3 evaluated on the code: the deliberate throw for a non-rate-limit
provider failure is caught by the per-credential catch handler, which rotates
to the next credential whenever one remains; with credential 0 returning a
plain HTTP 500 and credential 1 succeeding, the gateway fetches with both
credentials and returns the second credential's completion instead of
propagating the first error. -/
theorem groqChat_rotates_on_non_rate_limit_error :
    c3Run.1 = Except.ok "done" ∧ c3Run.2.map Prod.fst = [0, 1] := by
  constructor
  · rfl
  · rfl

/-! ### Claim C4: exactly two attempts per credential on schema failures -/

theorem groqChatGo_log_ge {α : Type} (behavior : Nat → GroqPayload → FetchOutcome)
    (parse : String → Option α) (parseErrMsgOf : String → Option String)
    (n : Nat) (payload : GroqPayload) :
    ∀ (rem i : Nat) (lastErr : Option String) (e : Nat × GroqPayload),
      e ∈ (groqChatGo behavior parse parseErrMsgOf n payload i rem lastErr).2 →
        i ≤ e.1 := by
  intro rem
  induction rem with
  | zero =>
    intro i le e he
    simp [groqChatGo] at he
  | succ rem ih =>
    intro i le e he
    simp only [groqChatGo] at he
    split at he
    · rcases List.mem_map.mp he with ⟨p, _, rfl⟩
      exact Nat.le_refl i
    · rcases List.mem_append.mp he with h1 | h2
      · rcases List.mem_map.mp h1 with ⟨p, _, rfl⟩
        exact Nat.le_refl i
      · exact Nat.le_trans (Nat.le_succ i) (ih (i + 1) _ e h2)
    · split at he
      · rcases List.mem_append.mp he with h1 | h2
        · rcases List.mem_map.mp h1 with ⟨p, _, rfl⟩
          exact Nat.le_refl i
        · exact Nat.le_trans (Nat.le_succ i) (ih (i + 1) _ e h2)
      · rcases List.mem_map.mp he with ⟨p, _, rfl⟩
        exact Nat.le_refl i

theorem filter_map_key_ne {i k : Nat} (h : (i == k) = false) (ps : List GroqPayload) :
    (ps.map (fun p => (i, p))).filter (fun e => e.1 == k) = [] := by
  induction ps with
  | nil => rfl
  | cons p ps ih => simp [List.filter_cons, h, ih]

theorem filter_map_key_eq {i k : Nat} (h : (i == k) = true) (ps : List GroqPayload) :
    (ps.map (fun p => (i, p))).filter (fun e => e.1 == k) = ps.map (fun p => (i, p)) := by
  induction ps with
  | nil => rfl
  | cons p ps ih => simp [List.filter_cons, h, ih]

theorem finishKey_not_ok {α : Type} (parse : String → Option α) (n i st : Nat)
    (body : String) (h : statusOk st = false) :
    ∀ c, finishKey parse n i st body ≠ TryOut.ok c := by
  intro c
  unfold finishKey
  rw [if_neg (by rw [h]; exact Bool.false_ne_true)]
  split <;> simp

theorem groqChatGo_filter_two {α : Type} (behavior : Nat → GroqPayload → FetchOutcome)
    (parse : String → Option α) (parseErrMsgOf : String → Option String)
    (n : Nat) (payload : GroqPayload) (k : Nat)
    (hk : k < n)
    (hearly : ∀ j p, j < k → ∃ st b, behavior j p = .response st b ∧ statusOk st = false)
    (st1 st2 : Nat) (body1 body2 : String)
    (h1 : behavior k payload = .response st1 body1)
    (hst1 : statusOk st1 = false)
    (hv1 : isToolCallValidationFailure st1 body1 = true)
    (h2 : behavior k (withToolSchemaRepairHint parseErrMsgOf payload body1)
      = .response st2 body2) :
    ∀ (rem i : Nat) (lastErr : Option String), i ≤ k → i + rem = n →
      ((groqChatGo behavior parse parseErrMsgOf n payload i rem lastErr).2.filter
          (fun e => e.1 == k))
        = [(k, payload), (k, withToolSchemaRepairHint parseErrMsgOf payload body1)] := by
  intro rem
  induction rem with
  | zero =>
    intro i le hik hin
    exfalso
    omega
  | succ rem ih =>
    intro i le hik hin
    have hreczero : ∀ (le2 : Option String) (e : Nat × GroqPayload),
        e ∈ (groqChatGo behavior parse parseErrMsgOf n payload (i + 1) rem le2).2 →
          i + 1 ≤ e.1 :=
      fun le2 => groqChatGo_log_ge behavior parse parseErrMsgOf n payload rem (i + 1) le2
    by_cases hik2 : i = k
    · subst hik2
      have hrecnil : ∀ le2 : Option String,
          ((groqChatGo behavior parse parseErrMsgOf n payload (i + 1) rem le2).2.filter
            (fun e => e.1 == i)) = [] := by
        intro le2
        refine List.filter_eq_nil_iff.mpr ?_
        intro e he
        have hge := hreczero le2 e he
        simp only [beq_iff_eq]
        omega
      have htk : tryKey behavior parse parseErrMsgOf n i payload
          = (finishKey parse n i st2 body2,
             [payload, withToolSchemaRepairHint parseErrMsgOf payload body1]) := by
        unfold tryKey
        simp only [h1]
        rw [if_pos (by rw [hst1, hv1]; rfl)]
        simp only [h2]
      have hlogged : (([payload,
            withToolSchemaRepairHint parseErrMsgOf payload body1].map
              (fun p => (i, p))).filter (fun e => e.1 == i))
          = [(i, payload), (i, withToolSchemaRepairHint parseErrMsgOf payload body1)] := by
        rw [filter_map_key_eq (by simp)]
        rfl
      simp only [groqChatGo, htk]
      split
      · rw [hlogged]
      · rw [List.filter_append, hlogged, hrecnil]
        rfl
      · split
        · rw [List.filter_append, hlogged, hrecnil]
          rfl
        · rw [hlogged]
    · have hlt : i < k := Nat.lt_of_le_of_ne hik hik2
      have hbeq : (i == k) = false := by
        simp only [beq_eq_false_iff_ne, ne_eq]
        exact hik2
      obtain ⟨stA, bA, hbA, hsA⟩ := hearly i payload hlt
      have htk_not_ok : ∀ c : α,
          (tryKey behavior parse parseErrMsgOf n i payload).1 ≠ .ok c := by
        intro c
        by_cases hval : (!statusOk stA && isToolCallValidationFailure stA bA) = true
        · obtain ⟨stB, bB, hbB, hsB⟩ :=
            hearly i (withToolSchemaRepairHint parseErrMsgOf payload bA) hlt
          have htk1 : (tryKey behavior parse parseErrMsgOf n i payload).1
              = finishKey parse n i stB bB := by
            unfold tryKey
            simp only [hbA]
            rw [if_pos hval]
            simp only [hbB]
          rw [htk1]
          exact finishKey_not_ok parse n i stB bB hsB c
        · have htk1 : (tryKey behavior parse parseErrMsgOf n i payload).1
              = finishKey parse n i stA bA := by
            unfold tryKey
            simp only [hbA]
            rw [if_neg hval]
          rw [htk1]
          exact finishKey_not_ok parse n i stA bA hsA c
      have hnext : i + 1 ≤ k := hlt
      have hin2 : i + 1 + rem = n := by omega
      cases hout : (tryKey behavior parse parseErrMsgOf n i payload).1 with
      | ok c => exact absurd hout (htk_not_ok c)
      | continued e =>
        simp only [groqChatGo, hout]
        rw [List.filter_append, filter_map_key_ne hbeq]
        rw [ih (i + 1) (some e) hnext hin2]
        rfl
      | thrown e =>
        simp only [groqChatGo, hout]
        rw [if_pos (show i < n - 1 by omega)]
        rw [List.filter_append, filter_map_key_ne hbeq]
        rw [ih (i + 1) (some ("Groq fetch error: " ++ e)) hnext hin2]
        rfl


/-- Claim C4. For a credential k whose first attempt fails with a tool-argument
schema validation failure, the gateway retries exactly once with the same
credential, appending the repair system instruction to the conversation; when
the retry also fails schema validation, credential k has been fetched exactly
twice (first the original payload, then the repaired payload) before the
gateway moves on or fails. Earlier credentials are assumed to fail (so that
credential k is reached at all). -/
theorem groqChat_schema_repair_two_attempts {α : Type} (keys : List String)
    (behavior : Nat → GroqPayload → FetchOutcome) (parse : String → Option α)
    (parseErrMsgOf : String → Option String) (payload : GroqPayload) (k : Nat)
    (st1 st2 : Nat) (body1 body2 : String)
    (hk : k < keys.length)
    (hearly : ∀ j p, j < k → ∃ st b, behavior j p = .response st b ∧ statusOk st = false)
    (h1 : behavior k payload = .response st1 body1)
    (hst1 : statusOk st1 = false)
    (hv1 : isToolCallValidationFailure st1 body1 = true)
    (h2 : behavior k (withToolSchemaRepairHint parseErrMsgOf payload body1)
      = .response st2 body2)
    (_hst2 : statusOk st2 = false)
    (_hv2 : isToolCallValidationFailure st2 body2 = true) :
    ((groqChat keys behavior parse parseErrMsgOf payload).2.filter
        (fun e => e.1 == k))
      = [(k, payload), (k, withToolSchemaRepairHint parseErrMsgOf payload body1)] ∧
    (withToolSchemaRepairHint parseErrMsgOf payload body1).messages
      = payload.messages ++ [⟨"system", repairText parseErrMsgOf body1⟩] := by
  constructor
  · unfold groqChat
    rw [if_neg (by omega)]
    exact groqChatGo_filter_two behavior parse parseErrMsgOf keys.length payload k hk
      hearly st1 st2 body1 body2 h1 hst1 hv1 h2 keys.length 0 none (Nat.zero_le k)
      (by omega)
  · rfl

/-- Witness for C4 at two concrete credentials, the first of which schema-fails
on both the original and the repaired payload. -/
theorem groqChat_schema_repair_two_attempts_witness :
    ((groqChat ["a", "b"]
        (fun i _ => if i = 0 then FetchOutcome.response 400 "tool_use_failed: null arg"
                    else FetchOutcome.response 200 "ok")
        (fun b => if b = "ok" then some "fine" else none)
        (fun _ => none) ⟨[]⟩).2.filter (fun e => e.1 == 0))
      = [(0, ⟨[]⟩),
         (0, withToolSchemaRepairHint (fun _ => none) ⟨[]⟩ "tool_use_failed: null arg")] ∧
    (withToolSchemaRepairHint (fun _ => none) (⟨[]⟩ : GroqPayload)
        "tool_use_failed: null arg").messages
      = [] ++ [⟨"system", repairText (fun _ => none) "tool_use_failed: null arg"⟩] :=
  groqChat_schema_repair_two_attempts ["a", "b"]
    (fun i _ => if i = 0 then FetchOutcome.response 400 "tool_use_failed: null arg"
                else FetchOutcome.response 200 "ok")
    (fun b => if b = "ok" then some "fine" else none)
    (fun _ => none) ⟨[]⟩ 0 400 400 "tool_use_failed: null arg" "tool_use_failed: null arg"
    (by decide) (fun j p hj => absurd hj (Nat.not_lt_zero j))
    rfl (by decide) (by decide) rfl (by decide) (by decide)

/-! ## Agent loop (index.ts lines 650-783)

The Model Gateway boundary is abstracted as a stub `script : Nat → AssistantMsg`
giving the assistant message of each model round-trip, exactly the driver the
spec's testable properties describe. -/

/-- Result payload of one executed tool call, as serialized back to the model
and logged. -/
inductive ToolResult where
  | searchRes (products : List Product)
  | priceRange (stats : Option Int × Option Int × Nat × String)
  | showRes (products : List Product)
  | unknown (msg : String)
deriving DecidableEq

/-- One entry of `toolsUsedInResponse`: tool name, arguments, result. -/
structure ToolUse where
  tool : String
  args : Args
  result : ToolResult
deriving DecidableEq

/-- An assistant message as the loop discriminates it: either an array of tool
calls (name and parsed arguments; a JS empty array also takes this branch) or
a final message whose content may be absent. -/
inductive AssistantMsg where
  | toolCalls (tcs : List (String × Args))
  | text (content : Option String)

/-- Loop state: the accumulated `lastProducts` and `toolsUsedInResponse`. -/
structure LoopState where
  lastProducts : List Product
  toolsUsed : List ToolUse
deriving DecidableEq

/-- One tool call of a batch (index.ts lines 678-720): dispatch on the tool
name, update `lastProducts` when a show_products call returns a nonempty
product list, and append the full call record to `toolsUsedInResponse`. -/
def toolStep (catalog : List Product) (st : LoopState) (tc : String × Args) :
    LoopState :=
  if tc.1 = "search_products" then
    { lastProducts := st.lastProducts,
      toolsUsed := st.toolsUsed ++
        [⟨tc.1, tc.2, .searchRes (execSearchProducts catalog tc.2)⟩] }
  else if tc.1 = "get_price_range" then
    { lastProducts := st.lastProducts,
      toolsUsed := st.toolsUsed ++
        [⟨tc.1, tc.2, .priceRange (execGetPriceRange catalog tc.2)⟩] }
  else if tc.1 = "show_products" then
    { lastProducts :=
        if (execShowProducts catalog tc.2).products ≠ []
        then (execShowProducts catalog tc.2).products
        else st.lastProducts,
      toolsUsed := st.toolsUsed ++
        [⟨tc.1, tc.2, .showRes (execShowProducts catalog tc.2).products⟩] }
  else
    { lastProducts := st.lastProducts,
      toolsUsed := st.toolsUsed ++
        [⟨tc.1, tc.2, .unknown ("Unknown tool: " ++ tc.1)⟩] }

/-- Processing of one batch of tool calls, in order. -/
def processToolCalls (catalog : List Product) (tcs : List (String × Args))
    (st : LoopState) : LoopState :=
  tcs.foldl (toolStep catalog) st

/-- MAX_AGENT_ITERS (index.ts line 67). -/
def MAX_AGENT_ITERS : Nat := 5

/-- The canned fallback reply on hitting the iteration cap (index.ts 762-763). -/
def maxIterReply : String :=
  "معلش، حصلت لفة كتير في البحث. جرّب تسأل تاني بطريقة أبسط (مثلاً: نوع + ميزانية)."

/-- The filler substituted for an absent or blank final text (index.ts 729). -/
def fillerReply : String := "تمام."

/-- The reply computation of the success path (index.ts lines 727-729):
`(assistantMsg.content || "").toString().trim()`, with the filler when blank. -/
def replyOf (content : Option String) : String :=
  if trimStr (content.getD "") = "" then fillerReply else trimStr (content.getD "")

/-- The outbound result of one chatbot turn, together with the logged
assistant row (`loggedTools` is the `tools_used` column, `loggedProducts` the
`products_recommended` column, both null when the underlying list is empty)
and two observers: the number of model round-trips issued and, for a
successful plain-text termination, the raw final content. -/
structure ChatResponse where
  reply : String
  products : List Product
  status : Nat
  modelCalls : Nat
  loggedTools : Option (List ToolUse)
  loggedProducts : Option (List Product)
  finalContent : Option (Option String)
deriving DecidableEq

/-- The agent loop from round-trip `i` with `fuel` iterations left: consult
the model; on tool calls execute the batch and continue; on plain text
terminate with the (possibly filler) reply; at fuel exhaustion terminate with
the canned fallback. Both terminal paths log the turn and return status 200. -/
def loopGo (catalog : List Product) (script : Nat → AssistantMsg) :
    Nat → Nat → LoopState → ChatResponse
  | 0, i, st =>
    { reply := maxIterReply, products := st.lastProducts, status := 200,
      modelCalls := i,
      loggedTools := if st.toolsUsed ≠ [] then some st.toolsUsed else none,
      loggedProducts := if st.lastProducts ≠ [] then some st.lastProducts else none,
      finalContent := none }
  | fuel + 1, i, st =>
    match script i with
    | .toolCalls tcs =>
      loopGo catalog script fuel (i + 1) (processToolCalls catalog tcs st)
    | .text c =>
      { reply := replyOf c, products := st.lastProducts, status := 200,
        modelCalls := i + 1,
        loggedTools := if st.toolsUsed ≠ [] then some st.toolsUsed else none,
        loggedProducts := if st.lastProducts ≠ [] then some st.lastProducts else none,
        finalContent := some c }

/-- One chatbot turn: run the agent loop with MAX_AGENT_ITERS iterations. -/
def runAgentLoop (catalog : List Product) (script : Nat → AssistantMsg) :
    ChatResponse :=
  loopGo catalog script MAX_AGENT_ITERS 0 ⟨[], []⟩

/-! ### Claim C2: the iteration cap -/

/-- Claim C2. A model stub that answers the first five round-trips with tool
calls drives the loop to exactly 5 model calls (the hypotheses constrain the
stub only at indices 0 through 4, so no 6th round-trip is ever consulted),
after which the loop terminates as a status-200 success carrying the canned
fallback reply and whatever products the five batches accumulated. -/
theorem agent_loop_iteration_cap (catalog : List Product)
    (script : Nat → AssistantMsg) (tcs0 tcs1 tcs2 tcs3 tcs4 : List (String × Args))
    (h0 : script 0 = .toolCalls tcs0) (h1 : script 1 = .toolCalls tcs1)
    (h2 : script 2 = .toolCalls tcs2) (h3 : script 3 = .toolCalls tcs3)
    (h4 : script 4 = .toolCalls tcs4) :
    (runAgentLoop catalog script).modelCalls = 5 ∧
    (runAgentLoop catalog script).reply = maxIterReply ∧
    (runAgentLoop catalog script).status = 200 ∧
    (runAgentLoop catalog script).finalContent = none ∧
    (runAgentLoop catalog script).products
      = (processToolCalls catalog tcs4 (processToolCalls catalog tcs3
          (processToolCalls catalog tcs2 (processToolCalls catalog tcs1
            (processToolCalls catalog tcs0 ⟨[], []⟩))))).lastProducts := by
  have hrun : runAgentLoop catalog script
      = loopGo catalog script 0 5
          (processToolCalls catalog tcs4 (processToolCalls catalog tcs3
            (processToolCalls catalog tcs2 (processToolCalls catalog tcs1
              (processToolCalls catalog tcs0 ⟨[], []⟩))))) := by
    unfold runAgentLoop MAX_AGENT_ITERS
    simp only [loopGo, h0, h1, h2, h3, h4]
  rw [hrun]
  exact ⟨rfl, rfl, rfl, rfl, rfl⟩

/-- Witness for C2: a stub that always calls show_products with one id, over a
one-product catalog. -/
theorem agent_loop_iteration_cap_witness :
    (runAgentLoop [⟨"p1", "n", "d", "s", 10, "phone", "b", "u"⟩]
        (fun _ => .toolCalls [("show_products", { ids := some ["p1"] })])).modelCalls = 5 ∧
    (runAgentLoop [⟨"p1", "n", "d", "s", 10, "phone", "b", "u"⟩]
        (fun _ => .toolCalls [("show_products", { ids := some ["p1"] })])).reply
      = maxIterReply ∧
    (runAgentLoop [⟨"p1", "n", "d", "s", 10, "phone", "b", "u"⟩]
        (fun _ => .toolCalls [("show_products", { ids := some ["p1"] })])).status = 200 ∧
    (runAgentLoop [⟨"p1", "n", "d", "s", 10, "phone", "b", "u"⟩]
        (fun _ => .toolCalls [("show_products", { ids := some ["p1"] })])).finalContent
      = none ∧
    (runAgentLoop [⟨"p1", "n", "d", "s", 10, "phone", "b", "u"⟩]
        (fun _ => .toolCalls [("show_products", { ids := some ["p1"] })])).products
      = (processToolCalls [⟨"p1", "n", "d", "s", 10, "phone", "b", "u"⟩]
          [("show_products", { ids := some ["p1"] })]
          (processToolCalls [⟨"p1", "n", "d", "s", 10, "phone", "b", "u"⟩]
            [("show_products", { ids := some ["p1"] })]
            (processToolCalls [⟨"p1", "n", "d", "s", 10, "phone", "b", "u"⟩]
              [("show_products", { ids := some ["p1"] })]
              (processToolCalls [⟨"p1", "n", "d", "s", 10, "phone", "b", "u"⟩]
                [("show_products", { ids := some ["p1"] })]
                (processToolCalls [⟨"p1", "n", "d", "s", 10, "phone", "b", "u"⟩]
                  [("show_products", { ids := some ["p1"] })]
                  ⟨[], []⟩))))).lastProducts :=
  agent_loop_iteration_cap [⟨"p1", "n", "d", "s", 10, "phone", "b", "u"⟩]
    (fun _ => .toolCalls [("show_products", { ids := some ["p1"] })])
    [("show_products", { ids := some ["p1"] })]
    [("show_products", { ids := some ["p1"] })]
    [("show_products", { ids := some ["p1"] })]
    [("show_products", { ids := some ["p1"] })]
    [("show_products", { ids := some ["p1"] })]
    rfl rfl rfl rfl rfl

/-! ### Claim C5: products_recommended versus show_products calls -/

/-- The loop-state invariant tying `lastProducts` to the recorded tool calls:
`lastProducts` is nonempty exactly when some recorded show_products call
returned a nonempty product list. -/
def ShowInv (st : LoopState) : Prop :=
  st.lastProducts ≠ [] ↔
    ∃ u ∈ st.toolsUsed, u.tool = "show_products" ∧
      ∃ ps, u.result = ToolResult.showRes ps ∧ ps ≠ []

theorem showInv_append_nonshow (st : LoopState) (u : ToolUse)
    (hu : ¬(u.tool = "show_products" ∧
      ∃ ps, u.result = ToolResult.showRes ps ∧ ps ≠ []))
    (h : ShowInv st) :
    (st.lastProducts ≠ [] ↔
      ∃ v ∈ st.toolsUsed ++ [u], v.tool = "show_products" ∧
        ∃ ps, v.result = ToolResult.showRes ps ∧ ps ≠ []) := by
  unfold ShowInv at h
  rw [h]
  constructor
  · rintro ⟨v, hv, hs⟩
    exact ⟨v, List.mem_append_left _ hv, hs⟩
  · rintro ⟨v, hv, hs⟩
    rcases List.mem_append.mp hv with hv1 | hv2
    · exact ⟨v, hv1, hs⟩
    · rcases List.mem_singleton.mp hv2 with rfl
      exact absurd hs hu

theorem toolStep_showInv (catalog : List Product) (st : LoopState)
    (tc : String × Args) (h : ShowInv st) : ShowInv (toolStep catalog st tc) := by
  unfold ShowInv at h ⊢
  unfold toolStep
  by_cases h1 : tc.1 = "search_products"
  · rw [if_pos h1]
    refine showInv_append_nonshow st _ ?_ h
    rintro ⟨_, ps, hres, _⟩
    exact absurd
      (show ToolResult.searchRes (execSearchProducts catalog tc.2)
          = ToolResult.showRes ps from hres) (by simp)
  · rw [if_neg h1]
    by_cases h2 : tc.1 = "get_price_range"
    · rw [if_pos h2]
      refine showInv_append_nonshow st _ ?_ h
      rintro ⟨_, ps, hres, _⟩
      exact absurd
        (show ToolResult.priceRange (execGetPriceRange catalog tc.2)
            = ToolResult.showRes ps from hres) (by simp)
    · rw [if_neg h2]
      by_cases h3 : tc.1 = "show_products"
      · rw [if_pos h3]
        by_cases hps : (execShowProducts catalog tc.2).products ≠ []
        · rw [if_pos hps]
          constructor
          · intro _
            exact ⟨⟨tc.1, tc.2, .showRes (execShowProducts catalog tc.2).products⟩,
              List.mem_append_right _ (List.mem_singleton.mpr rfl),
              h3, (execShowProducts catalog tc.2).products, rfl, hps⟩
          · intro _
            exact hps
        · rw [if_neg hps]
          push_neg at hps
          refine showInv_append_nonshow st _ ?_ h
          rintro ⟨_, ps, hres, hne⟩
          have h5 : ToolResult.showRes (execShowProducts catalog tc.2).products
              = ToolResult.showRes ps := hres
          have h6 : ps = (execShowProducts catalog tc.2).products := by
            simpa using h5.symm
          rw [h6] at hne
          exact hne hps
      · rw [if_neg h3]
        refine showInv_append_nonshow st _ ?_ h
        rintro ⟨_, ps, hres, _⟩
        exact absurd
          (show ToolResult.unknown ("Unknown tool: " ++ tc.1)
              = ToolResult.showRes ps from hres) (by simp)

theorem processToolCalls_showInv (catalog : List Product) :
    ∀ (tcs : List (String × Args)) (st : LoopState),
      ShowInv st → ShowInv (processToolCalls catalog tcs st) := by
  intro tcs
  induction tcs with
  | nil => intro st h; exact h
  | cons tc tcs ih =>
    intro st h
    exact ih (toolStep catalog st tc) (toolStep_showInv catalog st tc h)

theorem loopGo_products_iff (catalog : List Product) (script : Nat → AssistantMsg) :
    ∀ (fuel i : Nat) (st : LoopState), ShowInv st →
      ((loopGo catalog script fuel i st).loggedProducts ≠ none ↔
        ∃ u ∈ (loopGo catalog script fuel i st).loggedTools.getD [],
          u.tool = "show_products" ∧
            ∃ ps, u.result = ToolResult.showRes ps ∧ ps ≠ []) := by
  intro fuel
  induction fuel with
  | zero =>
    intro i st h
    simp only [loopGo]
    by_cases ht : st.toolsUsed ≠ []
    · rw [if_pos ht]
      by_cases hp : st.lastProducts ≠ []
      · rw [if_pos hp]
        simpa using h.mp hp
      · rw [if_neg hp]
        push_neg at hp
        constructor
        · intro hc; exact absurd rfl hc
        · intro hex
          exact absurd (h.mpr hex) (by simp [hp])
    · rw [if_neg ht]
      push_neg at ht
      by_cases hp : st.lastProducts ≠ []
      · rw [if_pos hp]
        have := h.mp hp
        rw [ht] at this
        simp at this
      · rw [if_neg hp]
        simp
  | succ fuel ih =>
    intro i st h
    simp only [loopGo]
    cases script i with
    | toolCalls tcs =>
      exact ih (i + 1) (processToolCalls catalog tcs st)
        (processToolCalls_showInv catalog tcs st h)
    | text c =>
      by_cases ht : st.toolsUsed ≠ []
      · rw [if_pos ht]
        by_cases hp : st.lastProducts ≠ []
        · rw [if_pos hp]
          simpa using h.mp hp
        · rw [if_neg hp]
          push_neg at hp
          constructor
          · intro hc; exact absurd rfl hc
          · intro hex
            exact absurd (h.mpr hex) (by simp [hp])
      · rw [if_neg ht]
        push_neg at ht
        by_cases hp : st.lastProducts ≠ []
        · rw [if_pos hp]
          have := h.mp hp
          rw [ht] at this
          simp at this
        · rw [if_neg hp]
          simp

/-- Claim C5 amended: the logged `products_recommended` is populated exactly
when some show_products call of the turn returned a NONEMPTY product list (a
show_products call whose result is empty does not populate it). -/
theorem products_recommended_iff_nonempty_show (catalog : List Product)
    (script : Nat → AssistantMsg) :
    ((runAgentLoop catalog script).loggedProducts ≠ none ↔
      ∃ u ∈ (runAgentLoop catalog script).loggedTools.getD [],
        u.tool = "show_products" ∧
          ∃ ps, u.result = ToolResult.showRes ps ∧ ps ≠ []) :=
  loopGo_products_iff catalog script MAX_AGENT_ITERS 0 ⟨[], []⟩ (by simp [ShowInv])

/-- Witness for the amended C5 at a concrete run containing a show_products
call with a nonempty result. -/
theorem products_recommended_iff_nonempty_show_witness :
    ((runAgentLoop [⟨"p1", "n", "d", "s", 10, "phone", "b", "u"⟩]
        (fun i => if i = 0
          then AssistantMsg.toolCalls [("show_products", { ids := some ["p1"] })]
          else AssistantMsg.text (some "ok"))).loggedProducts ≠ none ↔
      ∃ u ∈ (runAgentLoop [⟨"p1", "n", "d", "s", 10, "phone", "b", "u"⟩]
          (fun i => if i = 0
            then AssistantMsg.toolCalls [("show_products", { ids := some ["p1"] })]
            else AssistantMsg.text (some "ok"))).loggedTools.getD [],
        u.tool = "show_products" ∧
          ∃ ps, u.result = ToolResult.showRes ps ∧ ps ≠ []) :=
  products_recommended_iff_nonempty_show _ _

/-- Counterexample for C5 as stated: a turn whose single tool call is
show_products with an empty ids list logs a null products_recommended even
though a show_products call occurred in the tool sequence. -/
theorem products_recommended_counterexample :
    (runAgentLoop []
        (fun i => if i = 0
          then AssistantMsg.toolCalls [("show_products", { ids := some [] })]
          else AssistantMsg.text (some "ok"))).loggedProducts = none ∧
    ∃ u ∈ (runAgentLoop []
        (fun i => if i = 0
          then AssistantMsg.toolCalls [("show_products", { ids := some [] })]
          else AssistantMsg.text (some "ok"))).loggedTools.getD [],
      u.tool = "show_products" := by
  constructor
  · rfl
  · decide

/-! ### Claim C10: the reply is never empty -/

theorem loopGo_reply_nonempty (catalog : List Product) (script : Nat → AssistantMsg) :
    ∀ (fuel i : Nat) (st : LoopState),
      (loopGo catalog script fuel i st).reply ≠ "" ∧
      (∀ c, (loopGo catalog script fuel i st).finalContent = some c →
        (loopGo catalog script fuel i st).reply = replyOf c) := by
  intro fuel
  induction fuel with
  | zero =>
    intro i st
    constructor
    · show maxIterReply ≠ ""
      decide
    · intro c hc
      simp only [loopGo] at hc
      exact Option.noConfusion hc
  | succ fuel ih =>
    intro i st
    cases hs : script i with
    | toolCalls tcs =>
      have hrec := ih (i + 1) (processToolCalls catalog tcs st)
      constructor
      · simpa only [loopGo, hs] using hrec.1
      · intro c hc
        rw [show (loopGo catalog script (fuel + 1) i st)
            = loopGo catalog script fuel (i + 1) (processToolCalls catalog tcs st) by
          simp only [loopGo, hs]] at hc ⊢
        exact hrec.2 c hc
    | text c0 =>
      constructor
      · simp only [loopGo, hs]
        unfold replyOf
        split
        · decide
        · next hne => simpa using hne
      · intro c hc
        simp only [loopGo, hs] at hc ⊢
        injection hc with hcc
        rw [hcc]

/-- Claim C10. On every run the outbound reply is nonempty; on a successful
plain-text termination the reply is the trimmed content, with the fixed filler
substituted when the content is absent or trims to the empty string. -/
theorem reply_never_empty (catalog : List Product) (script : Nat → AssistantMsg) :
    (runAgentLoop catalog script).reply ≠ "" ∧
    (∀ c, (runAgentLoop catalog script).finalContent = some c →
      (runAgentLoop catalog script).reply = replyOf c) ∧
    (∀ c, trimStr (c.getD "") = "" → replyOf c = fillerReply) := by
  refine ⟨(loopGo_reply_nonempty catalog script MAX_AGENT_ITERS 0 ⟨[], []⟩).1,
    (loopGo_reply_nonempty catalog script MAX_AGENT_ITERS 0 ⟨[], []⟩).2, ?_⟩
  intro c hc
  unfold replyOf
  rw [if_pos hc]

/-- Witness for C10: a stub returning whitespace-only content yields the
filler reply. -/
theorem reply_never_empty_witness :
    (runAgentLoop [] (fun _ => AssistantMsg.text (some "   "))).reply = fillerReply := by
  have h := reply_never_empty [] (fun _ => AssistantMsg.text (some "   "))
  have h2 := h.2.1 (some "   ") rfl
  rw [h2]
  exact h.2.2 (some "   ") (by decide)

end ByteStore
